import Mathlib

/-!
Shallow embedding of the `edast/go-utils` repository: the generic LRU cache
(`cache` package, lru.go) and the latest-item overwrite queue and priority
queue (`stream` package).

Go's `container/list` doubly-linked recency list is modelled as a Lean
`List (K × V)` ordered front (most recently used) to back (least recently
used); the `map[K]*list.Element` index is modelled by its key set
`dict : List K`, updated exactly where the Go code updates the map; the
`sync.Pool` of retired entries is a list of stale `(key, value)` records.
Go's `int` capacity is modelled as `Int`.  `NewLRUCache` panicking on a
non-positive capacity is modelled by returning `none`.
-/

set_option linter.unusedSectionVars false

namespace GoUtils

/-- The `LRUCache` struct from lru.go: capacity, the recency list (each node
holding an `entry` key-value pair), the index (`dict`, modelled by its key
set) and the `sync.Pool` of retired entry records. -/
structure LRUCache (K V : Type) where
  capacity : Int
  list : List (K × V)
  dict : List K
  pool : List (K × V)
  deriving Repr, DecidableEq

/-- `NewLRUCache(capacity)`: panics (modelled as `none`) when
`capacity <= 0`, otherwise returns a cache with empty list, empty index and
empty pool. -/
def NewLRUCache (K V : Type) (capacity : Int) : Option (LRUCache K V) :=
  if capacity ≤ 0 then none
  else some { capacity := capacity, list := [], dict := [], pool := [] }

/-- The initial cache state that `NewLRUCache` builds on a positive
capacity. -/
def newCache (K V : Type) (capacity : Int) : LRUCache K V :=
  { capacity := capacity, list := [], dict := [], pool := [] }

variable {K V : Type} [DecidableEq K] [Inhabited K] [Inhabited V]

/-- `c.list.MoveToFront(elem)` where `elem` is the node holding `key`: the
node is spliced out and re-attached at the front. -/
def moveToFront (l : List (K × V)) (key : K) : List (K × V) :=
  match l.find? (fun p => decide (p.1 = key)) with
  | some p => p :: l.eraseP (fun p => decide (p.1 = key))
  | none => l

/-- `Get(key)` from lru.go: look `key` up in the index; on a hit move the
node to the front of the recency list and return `(value, true)`; on a miss
return `(zero value, false)` and mutate nothing. -/
def Get (c : LRUCache K V) (key : K) : V × Bool × LRUCache K V :=
  if key ∈ c.dict then
    (((c.list.find? (fun p => decide (p.1 = key))).map Prod.snd).getD default,
      true, { c with list := moveToFront c.list key })
  else (default, false, c)

/-- `c.pool.Get()`: reuse a retired entry record when the pool is non-empty,
else allocate a fresh (zero-valued) record. -/
def poolGet (pool : List (K × V)) : (K × V) × List (K × V) :=
  match pool with
  | [] => (default, [])
  | p :: ps => (p, ps)

/-- `evict()` from lru.go: remove the back (least recently used) node, if
any, delete its key from the index and retire its entry to the pool. -/
def evict (c : LRUCache K V) : LRUCache K V :=
  match c.list.getLast? with
  | none => c
  | some oldEntry =>
      { c with list := c.list.dropLast,
               dict := c.dict.erase oldEntry.1,
               pool := oldEntry :: c.pool }

/-- `Put(key, val)` from lru.go: on an existing key, overwrite the value in
place and move the node to the front.  Otherwise take an entry record from
the pool (its stale fields are overwritten with `(key, val)` before use),
evict the back node when `list.Len() >= capacity`, then push the new node to
the front and record it in the index. -/
def Put (c : LRUCache K V) (key : K) (val : V) : LRUCache K V :=
  if key ∈ c.dict then
    { c with list := (key, val) :: c.list.eraseP (fun p => decide (p.1 = key)) }
  else
    let gotten := poolGet c.pool
    let c1 : LRUCache K V := { c with pool := gotten.2 }
    let c2 := if c.capacity ≤ (c.list.length : Int) then evict c1 else c1
    { c2 with list := (key, val) :: c2.list, dict := key :: c2.dict }

/-- One public cache operation: a `Put(k, v)` or a `Get(k)` call. -/
inductive Op (K V : Type) where
  | put (k : K) (v : V)
  | get (k : K)
  deriving Repr, DecidableEq

/-- The state transition performed by one operation: the cache mutated by
`Put`, respectively the cache after `Get`'s recency promotion. -/
def step (c : LRUCache K V) : Op K V → LRUCache K V
  | .put k v => Put c k v
  | .get k => (Get c k).2.2

/-- Run a sequence of operations against a cache. -/
def runOps (ops : List (Op K V)) (c : LRUCache K V) : LRUCache K V :=
  ops.foldl step c

/-- Run a sequence of `Put` calls (one per element). -/
def runPuts (puts : List (K × V)) (c : LRUCache K V) : LRUCache K V :=
  puts.foldl (fun s kv => Put s kv.1 kv.2) c

/-- The structural well-formedness the Go code maintains: the index key set
is a permutation of the recency list's keys (same size, same membership),
and the list holds at most one node per key. -/
def WF (c : LRUCache K V) : Prop :=
  c.dict.Perm (c.list.map Prod.fst) ∧ (c.list.map Prod.fst).Nodup

theorem keys_eraseP (l : List (K × V)) (k : K) :
    (l.eraseP (fun p => decide (p.1 = k))).map Prod.fst = (l.map Prod.fst).erase k := by
  induction l with
  | nil => simp
  | cons p t ih =>
      by_cases h : p.1 = k
      · simp [List.eraseP_cons, List.erase_cons, h]
      · simp [List.eraseP_cons, List.erase_cons, h, ih]

theorem mem_keys_of_mem_dict (c : LRUCache K V) (hWF : WF c) {k : K}
    (hk : k ∈ c.dict) : k ∈ c.list.map Prod.fst :=
  hWF.1.mem_iff.mp hk

theorem find?_eq_some_of_mem_keys (l : List (K × V)) {k : K}
    (hk : k ∈ l.map Prod.fst) :
    ∃ p, l.find? (fun q => decide (q.1 = k)) = some p ∧ p.1 = k := by
  obtain ⟨p, hp, hpk⟩ : ∃ p ∈ l, p.1 = k := by simpa using hk
  cases hfind : l.find? (fun q => decide (q.1 = k)) with
  | none =>
      have hnone := List.find?_eq_none.mp hfind p hp
      exact (hnone (by simp [hpk])).elim
  | some q =>
      exact ⟨q, rfl, by simpa using List.find?_some hfind⟩

theorem moveToFront_keys (l : List (K × V)) (k : K)
    (hk : k ∈ l.map Prod.fst) :
    (moveToFront l k).map Prod.fst = k :: (l.map Prod.fst).erase k := by
  obtain ⟨p, hfind, hpk⟩ := find?_eq_some_of_mem_keys l hk
  simp [moveToFront, hfind, keys_eraseP, hpk]

theorem moveToFront_length (l : List (K × V)) (k : K)
    (hk : k ∈ l.map Prod.fst) :
    (moveToFront l k).length = l.length := by
  obtain ⟨p, hfind, hpk⟩ := find?_eq_some_of_mem_keys l hk
  obtain ⟨q, hq, hqk⟩ : ∃ q ∈ l, q.1 = k := by simpa using hk
  have := List.length_eraseP_add_one (p := fun q => decide (q.1 = k)) hq (by simpa using hqk)
  simp only [moveToFront, hfind, List.length_cons]
  omega

theorem keys_dropLast_of_getLast? (l : List (K × V)) (e : K × V)
    (hNd : (l.map Prod.fst).Nodup) (hl : l.getLast? = some e) :
    (l.map Prod.fst).erase e.1 = (l.dropLast.map Prod.fst) := by
  have hdecomp : l.dropLast ++ [e] = l := List.dropLast_append_getLast? e hl
  have hmap : l.map Prod.fst = l.dropLast.map Prod.fst ++ [e.1] := by
    conv_lhs => rw [← hdecomp]
    simp
  have hnm : e.1 ∉ l.dropLast.map Prod.fst := by
    intro hmem
    rw [hmap] at hNd
    exact (List.disjoint_of_nodup_append hNd) hmem (by simp)
  rw [hmap, List.erase_append_right _ hnm]
  simp

theorem WF_evict (c : LRUCache K V) (hWF : WF c) : WF (evict c) := by
  cases hlast : c.list.getLast? with
  | none => simpa [evict, hlast]
  | some e =>
      refine ⟨?_, ?_⟩
      · simp only [evict, hlast]
        have h1 : (c.dict.erase e.1).Perm ((c.list.map Prod.fst).erase e.1) :=
          hWF.1.erase e.1
        rwa [keys_dropLast_of_getLast? c.list e hWF.2 hlast] at h1
      · simp only [evict, hlast]
        rw [← keys_dropLast_of_getLast? c.list e hWF.2 hlast]
        exact hWF.2.erase e.1

theorem WF_Put (c : LRUCache K V) (k : K) (v : V) (hWF : WF c) :
    WF (Put c k v) := by
  by_cases hk : k ∈ c.dict
  · have hkeys : k ∈ c.list.map Prod.fst := mem_keys_of_mem_dict c hWF hk
    constructor
    · simp only [Put, if_pos hk, List.map_cons, keys_eraseP]
      exact hWF.1.trans (List.perm_cons_erase hkeys)
    · simp only [Put, if_pos hk, List.map_cons, keys_eraseP]
      exact ((List.perm_cons_erase hkeys).nodup hWF.2)
  · have hkeys : k ∉ c.list.map Prod.fst := fun h => hk (hWF.1.mem_iff.mpr h)
    simp only [Put, if_neg hk]
    by_cases hcap : c.capacity ≤ (c.list.length : Int)
    · simp only [if_pos hcap]
      have hWF1 : WF (evict { c with pool := (poolGet c.pool).2 }) :=
        WF_evict _ ⟨hWF.1, hWF.2⟩
      have hksub : k ∉ (evict { c with pool := (poolGet c.pool).2 }).list.map Prod.fst := by
        intro hmem
        apply hkeys
        cases hlast : c.list.getLast? with
        | none => simpa [evict, hlast] using hmem
        | some e =>
            simp only [evict, hlast] at hmem
            rw [List.map_dropLast] at hmem
            exact (List.dropLast_sublist _).subset hmem
      exact ⟨(hWF1.1.cons k), by simp [hksub, hWF1.2]⟩
    · simp only [if_neg hcap]
      exact ⟨hWF.1.cons k, by simp [hkeys, hWF.2]⟩

theorem WF_Get (c : LRUCache K V) (key : K) (hWF : WF c) :
    WF (Get c key).2.2 := by
  by_cases hk : key ∈ c.dict
  · have hkeys : key ∈ c.list.map Prod.fst := mem_keys_of_mem_dict c hWF hk
    constructor
    · simp only [Get, if_pos hk, moveToFront_keys c.list key hkeys]
      exact hWF.1.trans (List.perm_cons_erase hkeys)
    · simp only [Get, if_pos hk, moveToFront_keys c.list key hkeys]
      exact ((List.perm_cons_erase hkeys).nodup hWF.2)
  · simpa [Get, hk] using hWF

theorem Put_capacity (c : LRUCache K V) (k : K) (v : V) :
    (Put c k v).capacity = c.capacity := by
  by_cases hk : k ∈ c.dict
  · simp [Put, hk]
  · simp only [Put, if_neg hk]
    by_cases hc : c.capacity ≤ (c.list.length : Int)
    · cases hlast : c.list.getLast? with
      | none => simp [if_pos hc, evict, hlast]
      | some e => simp [if_pos hc, evict, hlast]
    · simp [if_neg hc]

theorem Get_capacity (c : LRUCache K V) (k : K) :
    ((Get c k).2.2).capacity = c.capacity := by
  by_cases hk : k ∈ c.dict <;> simp [Get, hk]

theorem step_capacity (c : LRUCache K V) (op : Op K V) :
    (step c op).capacity = c.capacity := by
  cases op with
  | put k v => exact Put_capacity c k v
  | get k => exact Get_capacity c k

theorem runOps_capacity (ops : List (Op K V)) (c : LRUCache K V) :
    (runOps ops c).capacity = c.capacity := by
  induction ops generalizing c with
  | nil => rfl
  | cons op t ih =>
      simp only [runOps, List.foldl_cons] at *
      rw [ih, step_capacity]

theorem length_Put_le (c : LRUCache K V) (k : K) (v : V) (hWF : WF c)
    (hcap : 0 < c.capacity) (hlen : (c.list.length : Int) ≤ c.capacity) :
    ((Put c k v).list.length : Int) ≤ c.capacity := by
  by_cases hk : k ∈ c.dict
  · have hkeys := mem_keys_of_mem_dict c hWF hk
    obtain ⟨q, hq, hqk⟩ : ∃ q ∈ c.list, q.1 = k := by simpa using hkeys
    have hlen' := List.length_eraseP_add_one (p := fun q => decide (q.1 = k)) hq
      (by simpa using hqk)
    simp only [Put, if_pos hk, List.length_cons]
    omega
  · simp only [Put, if_neg hk]
    by_cases hc : c.capacity ≤ (c.list.length : Int)
    · simp only [if_pos hc]
      have hne : c.list ≠ [] := by
        intro h
        rw [h] at hc
        simp at hc
        omega
      cases hlast : c.list.getLast? with
      | none =>
          rw [List.getLast?_eq_none_iff] at hlast
          exact absurd hlast hne
      | some e =>
          simp only [evict, hlast, List.length_cons, List.length_dropLast]
          have hpos : c.list.length ≠ 0 := fun h => hne (List.length_eq_zero.mp h)
          omega
    · simp only [if_neg hc, List.length_cons]
      omega

theorem runPuts_inv (puts : List (K × V)) (c : LRUCache K V) (hWF : WF c)
    (hcap : 0 < c.capacity) (hlen : (c.list.length : Int) ≤ c.capacity) :
    WF (runPuts puts c) ∧ (runPuts puts c).capacity = c.capacity ∧
      ((runPuts puts c).list.length : Int) ≤ c.capacity := by
  induction puts generalizing c with
  | nil => exact ⟨hWF, rfl, hlen⟩
  | cons kv t ih =>
      have hWF' := WF_Put c kv.1 kv.2 hWF
      have hcapeq := Put_capacity c kv.1 kv.2
      have hlen' := length_Put_le c kv.1 kv.2 hWF hcap hlen
      have := ih (Put c kv.1 kv.2) hWF' (hcapeq ▸ hcap) (hcapeq ▸ hlen')
      simpa [runPuts, hcapeq] using this

theorem WF_step (c : LRUCache K V) (op : Op K V) (hWF : WF c) :
    WF (step c op) := by
  cases op with
  | put k v => exact WF_Put c k v hWF
  | get k => exact WF_Get c k hWF

theorem WF_runOps (ops : List (Op K V)) (c : LRUCache K V) (hWF : WF c) :
    WF (runOps ops c) := by
  induction ops generalizing c with
  | nil => exact hWF
  | cons op t ih => exact ih (step c op) (WF_step c op hWF)

theorem WF_newCache (cap : Int) : WF (newCache K V cap) := by
  constructor <;> simp [newCache]

/-- Ghost-instrumented state for recency reasoning: the cache together with
the last-touch time of every key and a step counter. -/
structure TState (K V : Type) where
  cache : LRUCache K V
  touch : K → Nat
  clock : Nat

/-- Instrumented step: runs the cache operation and stamps the touched key
(the key of a `Put`, or of a `Get` that hits) with the current clock. -/
def stepT (s : TState K V) : Op K V → TState K V
  | .put k v => ⟨Put s.cache k v, Function.update s.touch k s.clock, s.clock + 1⟩
  | .get k =>
      if k ∈ s.cache.dict then
        ⟨(Get s.cache k).2.2, Function.update s.touch k s.clock, s.clock + 1⟩
      else ⟨(Get s.cache k).2.2, s.touch, s.clock + 1⟩

def runT (ops : List (Op K V)) (s : TState K V) : TState K V :=
  ops.foldl stepT s

def initT (K V : Type) [DecidableEq K] [Inhabited K] [Inhabited V]
    (cap : Int) : TState K V :=
  ⟨newCache K V cap, fun _ => 0, 1⟩

/-- Recency invariant: the cache is well formed, the recency list is sorted
by strictly decreasing last-touch time (front = most recent), and all touch
times are in the past. -/
def InvT (s : TState K V) : Prop :=
  WF s.cache ∧
  s.cache.list.Pairwise (fun a b => s.touch b.1 < s.touch a.1) ∧
  ∀ p ∈ s.cache.list, s.touch p.1 < s.clock

theorem runT_cache (ops : List (Op K V)) (s : TState K V) :
    (runT ops s).cache = runOps ops s.cache := by
  induction ops generalizing s with
  | nil => rfl
  | cons op t ih =>
      have hstep : (stepT s op).cache = step s.cache op := by
        cases op with
        | put k v => rfl
        | get k => by_cases hk : k ∈ s.cache.dict <;> simp [stepT, step, hk]
      simp only [runT, runOps, List.foldl_cons] at *
      rw [ih, hstep]

theorem pairwise_update_cons (l : List (K × V)) (e : K × V) (τ : K → Nat) (t : Nat)
    (hk : e.1 ∉ l.map Prod.fst)
    (hPW : l.Pairwise fun a b => τ b.1 < τ a.1)
    (hlt : ∀ p ∈ l, τ p.1 < t) :
    (e :: l).Pairwise
      (fun a b => Function.update τ e.1 t b.1 < Function.update τ e.1 t a.1) := by
  rw [List.pairwise_cons]
  constructor
  · intro q hq
    have hq1 : q.1 ≠ e.1 := fun h => hk (h ▸ List.mem_map_of_mem Prod.fst hq)
    rw [Function.update_same, Function.update_noteq hq1]
    exact hlt q hq
  · refine hPW.imp_of_mem ?_
    intro a b ha hb hab
    have ha1 : a.1 ≠ e.1 := fun h => hk (h ▸ List.mem_map_of_mem Prod.fst ha)
    have hb1 : b.1 ≠ e.1 := fun h => hk (h ▸ List.mem_map_of_mem Prod.fst hb)
    rwa [Function.update_noteq ha1, Function.update_noteq hb1]

theorem not_mem_keys_eraseP (l : List (K × V)) (k : K)
    (hNd : (l.map Prod.fst).Nodup) :
    k ∉ (l.eraseP (fun p => decide (p.1 = k))).map Prod.fst := by
  rw [keys_eraseP]
  by_cases hmem : k ∈ l.map Prod.fst
  · exact hNd.not_mem_erase
  · intro hc
    exact hmem ((List.erase_sublist _ _).subset hc)

theorem InvT_stepT (s : TState K V) (op : Op K V) (hInv : InvT s) :
    InvT (stepT s op) := by
  obtain ⟨hWF, hPW, hlt⟩ := hInv
  cases op with
  | put k v =>
      refine ⟨WF_Put s.cache k v hWF, ?_, ?_⟩
      · by_cases hk : k ∈ s.cache.dict
        · have hkeys := mem_keys_of_mem_dict s.cache hWF hk
          simp only [stepT, Put, if_pos hk]
          have herase : k ∉ (s.cache.list.eraseP
              (fun p => decide (p.1 = k))).map Prod.fst :=
            not_mem_keys_eraseP s.cache.list k hWF.2
          exact pairwise_update_cons _ ((k, v) : K × V) s.touch s.clock herase
            (hPW.sublist (List.eraseP_sublist _))
            (fun p hp => hlt p ((List.eraseP_sublist _).subset hp))
        · have hkeys : k ∉ s.cache.list.map Prod.fst :=
            fun h => hk (hWF.1.mem_iff.mpr h)
          simp only [stepT, Put, if_neg hk]
          by_cases hcap : s.cache.capacity ≤ (s.cache.list.length : Int)
          · simp only [if_pos hcap]
            cases hlast : s.cache.list.getLast? with
            | none =>
                simp only [evict, hlast]
                exact pairwise_update_cons _ ((k, v) : K × V) s.touch s.clock hkeys hPW hlt
            | some e =>
                simp only [evict, hlast]
                have hsub : s.cache.list.dropLast.Sublist s.cache.list :=
                  List.dropLast_sublist _
                have hkd : k ∉ s.cache.list.dropLast.map Prod.fst := by
                  intro hmem
                  rw [List.map_dropLast] at hmem
                  exact hkeys ((List.dropLast_sublist _).subset hmem)
                exact pairwise_update_cons _ ((k, v) : K × V) s.touch s.clock hkd
                  (hPW.sublist hsub) (fun p hp => hlt p (hsub.subset hp))
          · simp only [if_neg hcap]
            exact pairwise_update_cons _ ((k, v) : K × V) s.touch s.clock hkeys hPW hlt
      · intro p hp
        simp only [stepT] at hp ⊢
        by_cases hp1 : p.1 = k
        · rw [hp1, Function.update_same]
          omega
        · rw [Function.update_noteq hp1]
          have hmem : p ∈ s.cache.list := by
            by_cases hk : k ∈ s.cache.dict
            · simp only [Put, if_pos hk, List.mem_cons] at hp
              rcases hp with h | h
              · exact absurd (congrArg Prod.fst h) (by simpa using hp1)
              · exact (List.eraseP_sublist _).subset h
            · simp only [Put, if_neg hk] at hp
              by_cases hcap : s.cache.capacity ≤ (s.cache.list.length : Int)
              · simp only [if_pos hcap] at hp
                cases hlast : s.cache.list.getLast? with
                | none =>
                    simp only [evict, hlast] at hp
                    rcases List.mem_cons.mp hp with h | h
                    · exact absurd (congrArg Prod.fst h) (by simpa using hp1)
                    · exact h
                | some e =>
                    simp only [evict, hlast] at hp
                    rcases List.mem_cons.mp hp with h | h
                    · exact absurd (congrArg Prod.fst h) (by simpa using hp1)
                    · exact (List.dropLast_sublist _).subset h
              · simp only [if_neg hcap] at hp
                rcases List.mem_cons.mp hp with h | h
                · exact absurd (congrArg Prod.fst h) (by simpa using hp1)
                · exact h
          have := hlt p hmem
          omega
  | get k =>
      by_cases hk : k ∈ s.cache.dict
      · have hkeys := mem_keys_of_mem_dict s.cache hWF hk
        obtain ⟨q, hfind, hqk⟩ := find?_eq_some_of_mem_keys s.cache.list hkeys
        refine ⟨?_, ?_, ?_⟩
        · simp only [stepT, if_pos hk]
          exact WF_Get s.cache k hWF
        · simp only [stepT, if_pos hk, Get, moveToFront, hfind]
          have hqe : q = (k, q.2) := by
            rw [← hqk]
          rw [hqe]
          have herase : k ∉ (s.cache.list.eraseP
              (fun p => decide (p.1 = k))).map Prod.fst :=
            not_mem_keys_eraseP s.cache.list k hWF.2
          exact pairwise_update_cons
            (s.cache.list.eraseP (fun p => decide (p.1 = k))) ((k, q.2) : K × V)
            s.touch s.clock herase
            (hPW.sublist (List.eraseP_sublist _))
            (fun p hp => hlt p ((List.eraseP_sublist _).subset hp))
        · intro p hp
          simp only [stepT, if_pos hk, Get, moveToFront, hfind, List.mem_cons] at hp ⊢
          rcases hp with h | h
          · subst h
            by_cases hpk : p.1 = k
            · rw [hpk, Function.update_same]; omega
            · rw [Function.update_noteq hpk]
              have := hlt p (List.mem_of_find?_eq_some hfind)
              omega
          · by_cases hpk : p.1 = k
            · rw [hpk, Function.update_same]; omega
            · rw [Function.update_noteq hpk]
              have := hlt p ((List.eraseP_sublist _).subset h)
              omega
      · refine ⟨?_, ?_, ?_⟩
        · simp only [stepT, if_neg hk]
          exact WF_Get s.cache k hWF
        · simpa [stepT, hk, Get] using hPW
        · intro p hp
          simp only [stepT, if_neg hk, Get] at hp ⊢
          have := hlt p (by simpa [Get, hk] using hp)
          omega

theorem InvT_runT (ops : List (Op K V)) (s : TState K V) (hInv : InvT s) :
    InvT (runT ops s) := by
  induction ops generalizing s with
  | nil => exact hInv
  | cons op t ih => exact ih (stepT s op) (InvT_stepT s op hInv)

theorem InvT_initT (cap : Int) : InvT (initT K V cap) := by
  refine ⟨⟨by simp [initT, newCache], by simp [initT, newCache]⟩, ?_, ?_⟩
  · simp [initT, newCache]
  · intro p hp
    simp [initT, newCache] at hp

theorem touch_getLast_min (s : TState K V) (hInv : InvT s) (e : K × V)
    (hlast : s.cache.list.getLast? = some e) :
    ∀ q ∈ s.cache.list, q.1 ≠ e.1 → s.touch e.1 < s.touch q.1 := by
  obtain ⟨hWF, hPW, hlt⟩ := hInv
  have hdecomp : s.cache.list.dropLast ++ [e] = s.cache.list :=
    List.dropLast_append_getLast? e hlast
  intro q hq hne
  rw [← hdecomp] at hq hPW
  rw [List.pairwise_append] at hPW
  rcases List.mem_append.mp hq with h | h
  · exact hPW.2.2 q h e (by simp)
  · simp only [List.mem_singleton] at h
    exact absurd (congrArg Prod.fst h) hne

theorem Put_evict_effect (c : LRUCache K V) (k : K) (v : V) (e : K × V)
    (hWF : WF c) (hk : k ∉ c.dict) (hcap : c.capacity ≤ (c.list.length : Int))
    (hlast : c.list.getLast? = some e) :
    (Put c k v).list = (k, v) :: c.list.dropLast ∧
    (Put c k v).dict = k :: c.dict.erase e.1 ∧
    e.1 ∉ (Put c k v).dict ∧
    (∀ k' ∈ c.dict, k' ≠ e.1 → k' ∈ (Put c k v).dict) := by
  have hne : e.1 ≠ k := by
    intro h
    apply hk
    have hmem : e ∈ c.list := by
      have hd := List.dropLast_append_getLast? e hlast
      rw [← hd]
      simp
    exact hWF.1.mem_iff.mpr (h ▸ List.mem_map_of_mem Prod.fst hmem)
  have hdictNd : c.dict.Nodup := hWF.1.symm.nodup hWF.2
  refine ⟨?_, ?_, ?_, ?_⟩
  · simp [Put, hk, if_pos hcap, evict, hlast]
  · simp [Put, hk, if_pos hcap, evict, hlast]
  · simp only [Put, if_neg hk, if_pos hcap, evict, hlast, List.mem_cons]
    rintro (h | h)
    · exact hne h
    · exact hdictNd.not_mem_erase h
  · intro k' hk' hke
    simp only [Put, if_neg hk, if_pos hcap, evict, hlast, List.mem_cons]
    exact Or.inr ((List.mem_erase_of_ne hke).mpr hk')

/-- evict with pooling compiled out: the retired entry record is dropped
instead of being returned to the pool. -/
def evictNP (c : LRUCache K V) : LRUCache K V :=
  match c.list.getLast? with
  | none => c
  | some oldEntry =>
      { c with list := c.list.dropLast, dict := c.dict.erase oldEntry.1 }

/-- Put with pooling compiled out: every insertion allocates a fresh entry
record and the pool is never consulted. -/
def PutNP (c : LRUCache K V) (key : K) (val : V) : LRUCache K V :=
  if key ∈ c.dict then
    { c with list := (key, val) :: c.list.eraseP (fun p => decide (p.1 = key)) }
  else
    let c2 := if c.capacity ≤ (c.list.length : Int) then evictNP c else c
    { c2 with list := (key, val) :: c2.list, dict := key :: c2.dict }

def stepNP (c : LRUCache K V) : Op K V → LRUCache K V
  | .put k v => PutNP c k v
  | .get k => (Get c k).2.2

def runOpsNP (ops : List (Op K V)) (c : LRUCache K V) : LRUCache K V :=
  ops.foldl stepNP c

/-- Observable agreement between a pooled and a pool-free cache: same
capacity, same recency list (keys, values and order), same index. -/
def ObsEq (c c' : LRUCache K V) : Prop :=
  c.capacity = c'.capacity ∧ c.list = c'.list ∧ c.dict = c'.dict

theorem ObsEq_evict (c c' : LRUCache K V) (h : ObsEq c c') :
    ObsEq (evict c) (evictNP c') := by
  obtain ⟨hcap, hlist, hdict⟩ := h
  cases hlast : c.list.getLast? with
  | none =>
      have hlast' : c'.list.getLast? = none := hlist ▸ hlast
      exact ⟨by simp [evict, evictNP, hlast, hlast', hcap],
        by simp [evict, evictNP, hlast, hlast', hlist],
        by simp [evict, evictNP, hlast, hlast', hdict]⟩
  | some e =>
      have hlast' : c'.list.getLast? = some e := hlist ▸ hlast
      exact ⟨by simp [evict, evictNP, hlast, hlast', hcap],
        by simp [evict, evictNP, hlast, hlast', hlist],
        by simp [evict, evictNP, hlast, hlast', hdict]⟩

theorem ObsEq_Put (c c' : LRUCache K V) (k : K) (v : V) (h : ObsEq c c') :
    ObsEq (Put c k v) (PutNP c' k v) := by
  obtain ⟨hcap, hlist, hdict⟩ := h
  by_cases hk : k ∈ c.dict
  · have hk' : k ∈ c'.dict := hdict ▸ hk
    exact ⟨by simp [Put, PutNP, hk, hk', hcap],
      by simp [Put, PutNP, hk, hk', hlist],
      by simp [Put, PutNP, hk, hk', hdict]⟩
  · have hk' : k ∉ c'.dict := hdict ▸ hk
    by_cases hc : c.capacity ≤ (c.list.length : Int)
    · have hc' : c'.capacity ≤ (c'.list.length : Int) := by
        rw [← hcap, ← hlist]
        exact hc
      have hev := ObsEq_evict { c with pool := (poolGet c.pool).2 } c'
        ⟨hcap, hlist, hdict⟩
      refine ⟨?_, ?_, ?_⟩
      · simp only [Put, PutNP, if_neg hk, if_neg hk', if_pos hc, if_pos hc']
        exact hev.1
      · simp only [Put, PutNP, if_neg hk, if_neg hk', if_pos hc, if_pos hc']
        exact congrArg _ hev.2.1
      · simp only [Put, PutNP, if_neg hk, if_neg hk', if_pos hc, if_pos hc']
        exact congrArg _ hev.2.2
    · have hc' : ¬ c'.capacity ≤ (c'.list.length : Int) := by
        rw [← hcap, ← hlist]
        exact hc
      refine ⟨?_, ?_, ?_⟩
      · simp only [Put, PutNP, if_neg hk, if_neg hk', if_neg hc, if_neg hc']
        exact hcap
      · simp only [Put, PutNP, if_neg hk, if_neg hk', if_neg hc, if_neg hc']
        exact congrArg _ hlist
      · simp only [Put, PutNP, if_neg hk, if_neg hk', if_neg hc, if_neg hc']
        exact congrArg _ hdict

theorem Get_eq_of_ObsEq (c c' : LRUCache K V) (k : K) (h : ObsEq c c') :
    (Get c k).1 = (Get c' k).1 ∧ (Get c k).2.1 = (Get c' k).2.1 ∧
      ObsEq (Get c k).2.2 (Get c' k).2.2 := by
  obtain ⟨hcap, hlist, hdict⟩ := h
  by_cases hk : k ∈ c.dict
  · have hk' : k ∈ c'.dict := hdict ▸ hk
    exact ⟨by simp [Get, hk, hk', hlist],
      by simp [Get, hk, hk'],
      ⟨by simp [Get, hk, hk', hcap], by simp [Get, hk, hk', hlist, moveToFront],
        by simp [Get, hk, hk', hdict]⟩⟩
  · have hk' : k ∉ c'.dict := hdict ▸ hk
    exact ⟨by simp [Get, hk, hk'], by simp [Get, hk, hk'],
      ⟨by simp [Get, hk, hk', hcap], by simp [Get, hk, hk', hlist],
        by simp [Get, hk, hk', hdict]⟩⟩

theorem ObsEq_runOps (ops : List (Op K V)) (c c' : LRUCache K V) (h : ObsEq c c') :
    ObsEq (runOps ops c) (runOpsNP ops c') := by
  induction ops generalizing c c' with
  | nil => exact h
  | cons op t ih =>
      cases op with
      | put k v => exact ih (Put c k v) (PutNP c' k v) (ObsEq_Put c c' k v h)
      | get k => exact ih _ _ (Get_eq_of_ObsEq c c' k h).2.2

/-- `LatestItemQueue` from stream/latest_item_queue.go: the buffered channel
(capacity 1) holding the latest item, whether that channel has been closed,
and whether the `closed` signal channel has been closed. -/
structure LatestItemQueue (T : Type) where
  channel : List T
  channelClosed : Bool
  closed : Bool
  deriving Repr, DecidableEq

/-- `NewLatestItemQueue()`: empty one-slot channel, nothing closed. -/
def NewLatestItemQueue (T : Type) : LatestItemQueue T :=
  { channel := [], channelClosed := false, closed := false }

/-- `Close()` from latest_item_queue.go: if the `closed` signal channel is
already closed, return immediately; otherwise close the signal channel and
the consume channel. -/
def Close {T : Type} (q : LatestItemQueue T) : LatestItemQueue T :=
  if q.closed then q
  else { q with closed := true, channelClosed := true }

/-- The outcome of one receive on the consume channel: `some (some x)` is a
delivered item, `some none` is the immediate zero-value result from a closed
empty channel, `none` means the receive blocks. -/
def receiveResult {T : Type} (q : LatestItemQueue T) : Option (Option T) :=
  match q.channel with
  | x :: _ => some (some x)
  | [] => if q.channelClosed then some none else none

/-- `Item` from stream/priority_queue.go: value, priority, and the item's
index in the heap slice (`-1` once removed). -/
structure Item (T : Type) where
  value : T
  priority : Int
  index : Int
  deriving Repr, DecidableEq

/-- `Pop` from stream/priority_queue.go (heap.Interface method): on an empty
slice return nil and change nothing; otherwise remove the last element of
the slice, mark its index as `-1`, and return it. -/
def PQPop {T : Type} (pq : List (Item T)) : Option (Item T) × List (Item T) :=
  if h : pq.length = 0 then (none, pq)
  else
    let item := pq.getLast (fun hnil => h (by rw [hnil]; rfl))
    (some { item with index := -1 }, pq.dropLast)

/-- C1: for every capacity `c > 0` and every sequence of `Put` operations
applied to a store constructed with `New(c)`, the number of live entries
(keys in the index, nodes in the recency list) never exceeds `c` after any
operation completes. -/
theorem claim_C1_capacity_invariant :
    ∀ (K V : Type) [DecidableEq K] [Inhabited K] [Inhabited V] (cap : Int),
      0 < cap → ∀ puts : List (K × V),
        ((runPuts puts (newCache K V cap)).list.length : Int) ≤ cap ∧
        ((runPuts puts (newCache K V cap)).dict.length : Int) ≤ cap := by
  intro K V _ _ _ cap hcap puts
  have h := runPuts_inv puts (newCache K V cap) (WF_newCache cap) hcap
    (by simp [newCache]; omega)
  have hdict : (runPuts puts (newCache K V cap)).dict.length =
      (runPuts puts (newCache K V cap)).list.length := by
    simpa using h.1.1.length_eq
  refine ⟨?_, ?_⟩
  · simpa [newCache] using h.2.2
  · rw [hdict]
    simpa [newCache] using h.2.2

/-- Witness for C1 at capacity 2 with three Puts. -/
theorem claim_C1_capacity_invariant_witness :
    (0 : Int) < 2 ∧
    (((runPuts [(1, 10), (2, 20), (3, 30)] (newCache Nat Nat 2)).list.length : Int) ≤ 2 ∧
     ((runPuts [(1, 10), (2, 20), (3, 30)] (newCache Nat Nat 2)).dict.length : Int) ≤ 2) :=
  ⟨by decide,
   claim_C1_capacity_invariant Nat Nat 2 (by decide) [(1, 10), (2, 20), (3, 30)]⟩

/-- C4: `Get` on a key absent from the index returns the zero value of `V`
with `found = false` and leaves the whole store state unchanged. -/
theorem claim_C4_get_miss_frame :
    ∀ (K V : Type) [DecidableEq K] [Inhabited K] [Inhabited V]
      (c : LRUCache K V) (k : K), k ∉ c.dict →
      Get c k = (default, false, c) := by
  intro K V _ _ _ c k hk
  simp [Get, hk]

/-- Witness for C4: a miss on key 2 after `Put(1, 10)` at capacity 2. -/
theorem claim_C4_get_miss_frame_witness :
    2 ∉ (runPuts [(1, 10)] (newCache Nat Nat 2)).dict ∧
    Get (runPuts [(1, 10)] (newCache Nat Nat 2)) 2 =
      (default, false, runPuts [(1, 10)] (newCache Nat Nat 2)) :=
  ⟨by decide,
   claim_C4_get_miss_frame Nat Nat (runPuts [(1, 10)] (newCache Nat Nat 2)) 2
     (by decide)⟩

/-- C5: after every sequence of Get/Put operations, the index and the
recency list stay in lockstep: equal sizes, and a key is in the index
exactly when some list node's entry carries that key. -/
theorem claim_C5_index_sequence_lockstep :
    ∀ (K V : Type) [DecidableEq K] [Inhabited K] [Inhabited V]
      (cap : Int) (ops : List (Op K V)),
      (runOps ops (newCache K V cap)).dict.length =
        (runOps ops (newCache K V cap)).list.length ∧
      (∀ k, k ∈ (runOps ops (newCache K V cap)).dict ↔
        k ∈ (runOps ops (newCache K V cap)).list.map Prod.fst) := by
  intro K V _ _ _ cap ops
  have h := WF_runOps ops (newCache K V cap) (WF_newCache cap)
  exact ⟨by simpa using h.1.length_eq, fun k => h.1.mem_iff⟩

/-- C6: `NewLRUCache` fails fast (`none`) on capacity ≤ 0 and returns a
store with empty index, empty recency list and empty pool on capacity
> 0. -/
theorem claim_C6_construction_contract :
    ∀ (K V : Type) (cap : Int),
      (cap ≤ 0 → NewLRUCache K V cap = none) ∧
      (0 < cap → NewLRUCache K V cap =
        some { capacity := cap, list := [], dict := [], pool := [] }) := by
  intro K V cap
  constructor
  · intro h
    simp [NewLRUCache, h]
  · intro h
    rw [NewLRUCache, if_neg (by omega)]

/-- Witness for C6 at capacities -1 and 2. -/
theorem claim_C6_construction_contract_witness :
    ((-1 : Int) ≤ 0 ∧ NewLRUCache Nat Nat (-1) = none) ∧
    ((0 : Int) < 2 ∧ NewLRUCache Nat Nat 2 =
      some { capacity := 2, list := [], dict := [], pool := [] }) :=
  ⟨⟨by decide, (claim_C6_construction_contract Nat Nat (-1)).1 (by decide)⟩,
   ⟨by decide, (claim_C6_construction_contract Nat Nat 2).2 (by decide)⟩⟩

/-- C7: with positive capacity, whenever `Put`'s capacity guard fires the
recency list is non-empty, so eviction never sees an empty list; `evict` on
an empty list is a no-op; and every execution from `New(cap)` keeps the
configured capacity. -/
theorem claim_C7_evict_guarded :
    ∀ (K V : Type) [DecidableEq K] [Inhabited K] [Inhabited V],
      (∀ c : LRUCache K V, 0 < c.capacity →
        c.capacity ≤ (c.list.length : Int) → c.list ≠ []) ∧
      (∀ c : LRUCache K V, c.list = [] → evict c = c) ∧
      (∀ (cap : Int) (ops : List (Op K V)),
        (runOps ops (newCache K V cap)).capacity = cap) := by
  intro K V _ _ _
  refine ⟨?_, ?_, ?_⟩
  · intro c h1 h2 hnil
    rw [hnil] at h2
    simp at h2
    omega
  · intro c h
    have hlast : c.list.getLast? = none := by
      rw [h]
      rfl
    simp [evict, hlast]
  · intro cap ops
    simpa [newCache] using runOps_capacity ops (newCache K V cap)

/-- Witness for C7: a full capacity-1 store has a non-empty list, and
`evict` on the fresh empty store is the identity. -/
theorem claim_C7_evict_guarded_witness :
    ((0 : Int) < (⟨1, [(1, 1)], [1], []⟩ : LRUCache Nat Nat).capacity ∧
     (⟨1, [(1, 1)], [1], []⟩ : LRUCache Nat Nat).capacity ≤
       (((⟨1, [(1, 1)], [1], []⟩ : LRUCache Nat Nat).list.length : Int)) ∧
     (⟨1, [(1, 1)], [1], []⟩ : LRUCache Nat Nat).list ≠ []) ∧
    ((newCache Nat Nat 1).list = [] ∧
     evict (newCache Nat Nat 1) = newCache Nat Nat 1) :=
  ⟨⟨by decide, by decide,
     (claim_C7_evict_guarded Nat Nat).1 ⟨1, [(1, 1)], [1], []⟩ (by decide) (by decide)⟩,
   ⟨rfl, (claim_C7_evict_guarded Nat Nat).2.1 (newCache Nat Nat 1) rfl⟩⟩

/-- C3: `Put` on a live key overwrites the value in place, promotes the node
to the front, changes neither the index nor the pool nor the live-entry
count, and a subsequent `Get` returns the new value; Scenario C: capacity 1,
`Put("x",1); Put("x",2)` evicts nothing, `Get("x")` returns `(2, true)`, and
exactly one live entry remains. -/
theorem claim_C3_update_in_place :
    (∀ (K V : Type) [DecidableEq K] [Inhabited K] [Inhabited V]
       (c : LRUCache K V) (k : K) (v : V), WF c → k ∈ c.dict →
       (Put c k v).list = (k, v) :: c.list.eraseP (fun p => decide (p.1 = k)) ∧
       (Put c k v).list.length = c.list.length ∧
       (Put c k v).dict = c.dict ∧
       (Put c k v).pool = c.pool ∧
       (Get (Put c k v) k).1 = v ∧
       (Get (Put c k v) k).2.1 = true) ∧
    ((runPuts [("x", 1), ("x", 2)] (newCache String Nat 1)).list = [("x", 2)] ∧
     (runPuts [("x", 1), ("x", 2)] (newCache String Nat 1)).dict = ["x"] ∧
     (runPuts [("x", 1), ("x", 2)] (newCache String Nat 1)).pool = [] ∧
     (Get (runPuts [("x", 1), ("x", 2)] (newCache String Nat 1)) "x").1 = 2 ∧
     (Get (runPuts [("x", 1), ("x", 2)] (newCache String Nat 1)) "x").2.1 = true ∧
     (runPuts [("x", 1), ("x", 2)] (newCache String Nat 1)).list.length = 1) := by
  constructor
  · intro K V _ _ _ c k v hWF hk
    have hkeys := mem_keys_of_mem_dict c hWF hk
    obtain ⟨q, hq, hqk⟩ : ∃ q ∈ c.list, q.1 = k := by simpa using hkeys
    have hlen := List.length_eraseP_add_one (p := fun p => decide (p.1 = k)) hq
      (by simpa using hqk)
    have hdict : (Put c k v).dict = c.dict := by simp [Put, hk]
    refine ⟨by simp [Put, hk], ?_, hdict, by simp [Put, hk], ?_, ?_⟩
    · simp only [Put, if_pos hk, List.length_cons]
      omega
    · simp [Get, Put, hdict, hk]
    · simp [Get, Put, hdict, hk]
  · refine ⟨by decide, by decide, by decide, by decide, by decide, by decide⟩

/-- Witness for C3 on a concrete well-formed capacity-1 store holding
key "x". -/
theorem claim_C3_update_in_place_witness :
    (WF (⟨1, [("x", 1)], ["x"], []⟩ : LRUCache String Nat) ∧
     "x" ∈ (⟨1, [("x", 1)], ["x"], []⟩ : LRUCache String Nat).dict) ∧
    ((Put (⟨1, [("x", 1)], ["x"], []⟩ : LRUCache String Nat) "x" 2).list =
       ("x", 2) :: [("x", 1)].eraseP (fun p => decide (p.1 = "x")) ∧
     (Put (⟨1, [("x", 1)], ["x"], []⟩ : LRUCache String Nat) "x" 2).list.length =
       [("x", 1)].length ∧
     (Put (⟨1, [("x", 1)], ["x"], []⟩ : LRUCache String Nat) "x" 2).dict = ["x"] ∧
     (Put (⟨1, [("x", 1)], ["x"], []⟩ : LRUCache String Nat) "x" 2).pool = [] ∧
     (Get (Put (⟨1, [("x", 1)], ["x"], []⟩ : LRUCache String Nat) "x" 2) "x").1 = 2 ∧
     (Get (Put (⟨1, [("x", 1)], ["x"], []⟩ : LRUCache String Nat) "x" 2) "x").2.1 = true) :=
  ⟨⟨⟨by decide, by decide⟩, by decide⟩,
   claim_C3_update_in_place.1 String Nat ⟨1, [("x", 1)], ["x"], []⟩ "x" 2
     ⟨by decide, by decide⟩ (by decide)⟩

/-- C9: `Close` on the latest-item queue is idempotent — once the queue is
closed a further `Close` performs no action — and after `Close` the consume
channel reports closed/empty instead of blocking. -/
theorem claim_C9_close_idempotent :
    ∀ (T : Type) (q : LatestItemQueue T),
      Close (Close q) = Close q ∧
      (q.closed = true → Close q = q) ∧
      (Close q).closed = true ∧
      ((q.closed = true → q.channelClosed = true) →
        (Close q).channelClosed = true ∧ receiveResult (Close q) ≠ none) := by
  intro T q
  have hclosed : (Close q).closed = true := by
    by_cases h : q.closed = true <;> simp [Close, h]
  refine ⟨?_, ?_, hclosed, ?_⟩
  · by_cases h : q.closed = true <;> simp [Close, h]
  · intro h
    simp [Close, h]
  · intro hcc
    have hcc' : (Close q).channelClosed = true := by
      by_cases h : q.closed = true
      · simp [Close, h, hcc h]
      · simp [Close, h]
    refine ⟨hcc', ?_⟩
    cases hch : (Close q).channel with
    | nil => simp [receiveResult, hch, hcc']
    | cons x t => simp [receiveResult, hch]

/-- Witness for C9 on a freshly constructed queue. -/
theorem claim_C9_close_idempotent_witness :
    ((NewLatestItemQueue Nat).closed = true →
      (NewLatestItemQueue Nat).channelClosed = true) ∧
    (Close (Close (NewLatestItemQueue Nat)) = Close (NewLatestItemQueue Nat) ∧
     (Close (NewLatestItemQueue Nat)).channelClosed = true ∧
     receiveResult (Close (NewLatestItemQueue Nat)) ≠ none) :=
  ⟨by decide,
   (claim_C9_close_idempotent Nat (NewLatestItemQueue Nat)).1,
   ((claim_C9_close_idempotent Nat (NewLatestItemQueue Nat)).2.2.2 (by decide)).1,
   ((claim_C9_close_idempotent Nat (NewLatestItemQueue Nat)).2.2.2 (by decide)).2⟩

/-- C10: `Pop` on an empty priority queue returns nil and leaves the queue
empty; on a non-empty queue it removes and returns the last element of the
slice with its index marked `-1`. -/
theorem claim_C10_pop_contract :
    ∀ (T : Type),
      PQPop ([] : List (Item T)) = (none, []) ∧
      (∀ (pq : List (Item T)) (h : pq ≠ []),
        PQPop pq = (some { pq.getLast h with index := -1 }, pq.dropLast)) := by
  intro T
  constructor
  · rfl
  · intro pq h
    have hlen : ¬ pq.length = 0 := fun hl => h (List.length_eq_zero.mp hl)
    simp only [PQPop, dif_neg hlen]

/-- Witness for C10 on a two-element queue. -/
theorem claim_C10_pop_contract_witness :
    ([(⟨5, 1, 0⟩ : Item Nat), ⟨6, 2, 1⟩] ≠ ([] : List (Item Nat))) ∧
    PQPop [(⟨5, 1, 0⟩ : Item Nat), ⟨6, 2, 1⟩] =
      (some ⟨6, 2, -1⟩, [⟨5, 1, 0⟩]) := by
  refine ⟨by decide, ?_⟩
  rw [(claim_C10_pop_contract Nat).2 [⟨5, 1, 0⟩, ⟨6, 2, 1⟩] (by decide)]
  rfl

/-- C8: for every operation sequence, the store with the recycling pool and
the pool-free variant (retire is a no-op, reuse always allocates fresh)
agree on every observable: the recency list (keys, values, order), the
index, and all Get results. -/
theorem claim_C8_pooling_unobservable :
    ∀ (K V : Type) [DecidableEq K] [Inhabited K] [Inhabited V]
      (cap : Int) (ops : List (Op K V)),
      (runOps ops (newCache K V cap)).list = (runOpsNP ops (newCache K V cap)).list ∧
      (runOps ops (newCache K V cap)).dict = (runOpsNP ops (newCache K V cap)).dict ∧
      (∀ k, (Get (runOps ops (newCache K V cap)) k).1 =
              (Get (runOpsNP ops (newCache K V cap)) k).1 ∧
            (Get (runOps ops (newCache K V cap)) k).2.1 =
              (Get (runOpsNP ops (newCache K V cap)) k).2.1) := by
  intro K V _ _ _ cap ops
  have h := ObsEq_runOps ops (newCache K V cap) (newCache K V cap) ⟨rfl, rfl, rfl⟩
  exact ⟨h.2.1, h.2.2,
    fun k => ⟨(Get_eq_of_ObsEq _ _ k h).1, (Get_eq_of_ObsEq _ _ k h).2.1⟩⟩

/-- C2: whenever a Put of a new key triggers eviction, the evicted entry is
exactly the live entry least recently touched by any Get or Put (its
last-touch time is below every other live entry's, it leaves the index, and
every other live key survives); Scenario B: capacity 2, the trace
`Put(1,1); Put(2,2); Put(3,3); Get(1); Get(2); Put(4,4); Get(3); Get(2)`
evicts key 1 then key 3 (not key 2), with `Get(1)` and `Get(3)` returning
`found = false` and the final `Get(2)` returning `(2, true)`. -/
theorem claim_C2_evicts_least_recently_touched :
    (∀ (K V : Type) [DecidableEq K] [Inhabited K] [Inhabited V]
       (cap : Int) (ops : List (Op K V)) (s : TState K V) (k : K) (v : V)
       (e : K × V),
       s = runT ops (initT K V cap) →
       k ∉ s.cache.dict →
       s.cache.capacity ≤ (s.cache.list.length : Int) →
       s.cache.list.getLast? = some e →
       s.cache = runOps ops (newCache K V cap) ∧
       (∀ q ∈ s.cache.list, q.1 ≠ e.1 → s.touch e.1 < s.touch q.1) ∧
       (Put s.cache k v).list = (k, v) :: s.cache.list.dropLast ∧
       e.1 ∉ (Put s.cache k v).dict ∧
       (∀ k' ∈ s.cache.dict, k' ≠ e.1 → k' ∈ (Put s.cache k v).dict)) ∧
    ((Get (runOps [Op.put 1 1, Op.put 2 2, Op.put 3 3] (newCache Nat Nat 2)) 1).2.1
        = false ∧
     1 ∉ (runOps [Op.put 1 1, Op.put 2 2, Op.put 3 3] (newCache Nat Nat 2)).dict ∧
     2 ∈ (runOps [Op.put 1 1, Op.put 2 2, Op.put 3 3] (newCache Nat Nat 2)).dict ∧
     3 ∈ (runOps [Op.put 1 1, Op.put 2 2, Op.put 3 3] (newCache Nat Nat 2)).dict ∧
     3 ∉ (runOps [Op.put 1 1, Op.put 2 2, Op.put 3 3, Op.get 1, Op.get 2,
            Op.put 4 4] (newCache Nat Nat 2)).dict ∧
     2 ∈ (runOps [Op.put 1 1, Op.put 2 2, Op.put 3 3, Op.get 1, Op.get 2,
            Op.put 4 4] (newCache Nat Nat 2)).dict ∧
     4 ∈ (runOps [Op.put 1 1, Op.put 2 2, Op.put 3 3, Op.get 1, Op.get 2,
            Op.put 4 4] (newCache Nat Nat 2)).dict ∧
     (Get (runOps [Op.put 1 1, Op.put 2 2, Op.put 3 3, Op.get 1, Op.get 2,
            Op.put 4 4] (newCache Nat Nat 2)) 3).2.1 = false ∧
     (Get (runOps [Op.put 1 1, Op.put 2 2, Op.put 3 3, Op.get 1, Op.get 2,
            Op.put 4 4, Op.get 3] (newCache Nat Nat 2)) 2).1 = 2 ∧
     (Get (runOps [Op.put 1 1, Op.put 2 2, Op.put 3 3, Op.get 1, Op.get 2,
            Op.put 4 4, Op.get 3] (newCache Nat Nat 2)) 2).2.1 = true) := by
  constructor
  · intro K V _ _ _ cap ops s k v e hs hk hcap hlast
    subst hs
    have hInv := InvT_runT ops (initT K V cap) (InvT_initT cap)
    have hmin := touch_getLast_min _ hInv e hlast
    have heff := Put_evict_effect _ k v e hInv.1 hk hcap hlast
    refine ⟨?_, hmin, heff.1, heff.2.2.1, heff.2.2.2⟩
    rw [runT_cache ops (initT K V cap)]
    rfl
  · refine ⟨by decide, by decide, by decide, by decide, by decide, by decide,
      by decide, by decide, by decide, by decide⟩

/-- Witness for C2: at capacity 2, after `Put(1,1); Put(2,2)`, inserting new
key 3 evicts key 1, the unique least recently touched live key. -/
theorem claim_C2_evicts_least_recently_touched_witness :
    (3 ∉ (runT [Op.put 1 1, Op.put 2 2] (initT Nat Nat 2)).cache.dict ∧
     (runT [Op.put 1 1, Op.put 2 2] (initT Nat Nat 2)).cache.capacity ≤
       ((runT [Op.put 1 1, Op.put 2 2] (initT Nat Nat 2)).cache.list.length : Int) ∧
     (runT [Op.put 1 1, Op.put 2 2] (initT Nat Nat 2)).cache.list.getLast? =
       some (1, 1)) ∧
    ((∀ q ∈ (runT [Op.put 1 1, Op.put 2 2] (initT Nat Nat 2)).cache.list,
        q.1 ≠ 1 →
        (runT [Op.put 1 1, Op.put 2 2] (initT Nat Nat 2)).touch 1 <
          (runT [Op.put 1 1, Op.put 2 2] (initT Nat Nat 2)).touch q.1) ∧
     1 ∉ (Put (runT [Op.put 1 1, Op.put 2 2] (initT Nat Nat 2)).cache 3 7).dict) := by
  have h := (claim_C2_evicts_least_recently_touched).1 Nat Nat 2
    [Op.put 1 1, Op.put 2 2] (runT [Op.put 1 1, Op.put 2 2] (initT Nat Nat 2))
    3 7 (1, 1) rfl (by decide) (by decide) (by decide)
  exact ⟨⟨by decide, by decide, by decide⟩, h.2.1, h.2.2.2.1⟩

end GoUtils
